import Mathlib

/-!
Verification of the spectator-go metrics client core against its
specification.  The repository sources available here are
`http_handler.go` (the pull-based scrape handler and its snapshot data
types) and `registry_test.go` (the test suite for the registry, meters,
encoder and publisher).  The registry, meter, encoder and scheduler
implementations themselves are not present, so those components are
modelled from the specification, as marked on each definition.
-/

namespace Spectator

/-! ## Meter primitives

Modelled from the spec: the Counter, Timer and DistributionSummary
accumulators (the meter source files are not in the repository snapshot;
only their tests are).  Values are rationals (Go float64 / int64
arithmetic here is exact: only addition, multiplication and max occur).
A `Measure` call atomically returns the accumulated statistics and
resets the accumulator to zero. -/

/-- Counter state: the accumulated delta since the last measure. -/
abbrev CounterState : Type := ℚ

/-- Modelled from the spec: `Add(delta)` adds to the counter total. -/
def counterAdd (s : CounterState) (delta : ℚ) : CounterState :=
  (s : ℚ) + delta

/-- Modelled from the spec: counter `Measure` atomically exchanges the
total with zero and returns the pre-exchange value as the delta. -/
def counterMeasure (s : CounterState) : ℚ × CounterState :=
  ((s : ℚ), (0 : ℚ))

/-- The four correlated statistics of a Timer: `count`, `totalTime`,
`totalOfSquares`, `max`.  Durations are in nanoseconds (Go
`time.Duration` is an int64 nanosecond count). -/
structure TimerState where
  count : ℕ
  totalTime : ℤ
  totalOfSquares : ℤ
  max : ℤ
deriving DecidableEq, Repr

/-- The fresh zeroed timer state. -/
def zeroTimer : TimerState := ⟨0, 0, 0, 0⟩

/-- Modelled from the spec: Timer `Record(duration)` adds to all four
fields in one critical section. -/
def timerRecord (s : TimerState) (d : ℤ) : TimerState :=
  ⟨s.count + 1, s.totalTime + d, s.totalOfSquares + d * d, max s.max d⟩

/-- Modelled from the spec: Timer `Measure` swaps in a fresh zeroed
state and returns the previous one whole. -/
def timerMeasure (s : TimerState) : TimerState × TimerState :=
  (s, zeroTimer)

/-- The four correlated statistics of a DistributionSummary: `count`,
`totalAmount`, `totalOfSquares`, `max`.  Amounts are int64 in the
source; rationals here. -/
structure DistState where
  count : ℕ
  totalAmount : ℚ
  totalOfSquares : ℚ
  max : ℚ
deriving DecidableEq, Repr

/-- The fresh zeroed distribution-summary state. -/
def zeroDist : DistState := ⟨0, 0, 0, 0⟩

/-- Modelled from the spec: DistributionSummary `Record(amount)` adds to
all four fields in one critical section. -/
def distRecord (s : DistState) (a : ℚ) : DistState :=
  ⟨s.count + 1, s.totalAmount + a, s.totalOfSquares + a * a, max s.max a⟩

/-- Modelled from the spec: DistributionSummary `Measure` swaps in a
fresh zeroed state and returns the previous one whole. -/
def distMeasure (s : DistState) : DistState × DistState :=
  (s, zeroDist)

/-- Apply a list of counter updates in order. -/
def counterApply (s : CounterState) (us : List ℚ) : CounterState :=
  us.foldl counterAdd s

/-- Apply a list of timer updates (durations) in order. -/
def timerApply (s : TimerState) (us : List ℤ) : TimerState :=
  us.foldl timerRecord s

/-- Apply a list of distribution-summary updates (amounts) in order. -/
def distApply (s : DistState) (us : List ℚ) : DistState :=
  us.foldl distRecord s

/-- C1.  For every Counter, Timer and DistributionSummary meter, a
`Measure` call returns exactly the accumulation applied since the
previous `Measure` call (equivalently, since creation: applying the same
updates to a fresh meter), resets the accumulator, and a second
`Measure` with no intervening updates returns zero for every reported
statistic. -/
theorem measure_returns_delta_and_resets :
    ∀ (c : CounterState) (t : TimerState) (d : DistState)
      (cus : List ℚ) (tus : List ℤ) (dus : List ℚ),
      (counterMeasure (counterApply (counterMeasure c).2 cus)).1 =
        (counterMeasure (counterApply (0 : ℚ) cus)).1 ∧
      (timerMeasure (timerApply (timerMeasure t).2 tus)).1 =
        (timerMeasure (timerApply zeroTimer tus)).1 ∧
      (distMeasure (distApply (distMeasure d).2 dus)).1 =
        (distMeasure (distApply zeroDist dus)).1 ∧
      (counterMeasure (counterMeasure c).2).1 = 0 ∧
      (timerMeasure (timerMeasure t).2).1 = zeroTimer ∧
      (distMeasure (distMeasure d).2).1 = zeroDist := by
  intro c t d cus tus dus
  refine ⟨rfl, rfl, rfl, rfl, rfl, rfl⟩

/-- C6.  One `Record` of a 1-second duration (10⁹ nanoseconds) on a
fresh Timer yields on `Measure` exactly the four statistics `count = 1`,
`totalTime = 10⁹`, `totalOfSquares = 10⁹·10⁹` and `max = 10⁹`. -/
theorem timer_record_one_second :
    (timerMeasure (timerRecord zeroTimer 1000000000)).1 =
      ⟨1, 1000000000, 1000000000 * 1000000000, 1000000000⟩ ∧
    (timerMeasure (timerRecord zeroTimer 1000000000)).2 = zeroTimer := by
  exact ⟨by decide, rfl⟩

/-! ## Identity and Registry interning

Modelled from the spec: an Identity is an immutable (name, tag set) pair
with value-based equality independent of tag insertion order; the
registry interns exactly one meter per Identity.  Tag sets are
`Finmap`s (finite maps whose equality is content equality).  A Go
`map[string]string` is built by successive insertions where a later
insertion for the same key overwrites the earlier one. -/

/-- A tag mapping: finite map from tag key to tag value. -/
abbrev TagMap : Type := Finmap fun _ : String => String

/-- Build a tag map from a list of insertions, later entries
overwriting earlier ones for the same key (Go map literal / assignment
semantics). -/
def tagMapOfList (l : List (String × String)) : TagMap :=
  l.foldl (fun m p => m.insert p.1 p.2) ∅

/-- The value a Go map built from insertion list `l` holds at key `k`:
the last inserted value for `k`, if any. -/
def goMapLookup (l : List (String × String)) (k : String) : Option String :=
  l.foldl (fun acc p => if p.1 = k then some p.2 else acc) none

theorem tagMapOfList_lookup_aux (l : List (String × String)) :
    ∀ (m : TagMap) (k : String),
      (l.foldl (fun m p => m.insert p.1 p.2) m).lookup k =
        l.foldl (fun acc p => if p.1 = k then some p.2 else acc) (m.lookup k) := by
  induction l with
  | nil => intro m k; rfl
  | cons p t ih =>
      intro m k
      simp only [List.foldl_cons]
      rw [ih]
      by_cases hk : p.1 = k
      · subst hk; rw [Finmap.lookup_insert, if_pos rfl]
      · rw [Finmap.lookup_insert_of_ne m (Ne.symm hk), if_neg hk]

/-- The tag map built from an insertion list looks up exactly like the
Go map built from the same insertions. -/
theorem tagMapOfList_lookup (l : List (String × String)) (k : String) :
    (tagMapOfList l).lookup k = goMapLookup l k := by
  have h := tagMapOfList_lookup_aux l ∅ k
  rwa [Finmap.lookup_empty] at h

/-- An Identity: immutable (metric name, tag map) pair with value-based
equality. -/
structure Id where
  name : String
  tags : TagMap
deriving DecidableEq

/-- The kind of a meter. -/
inductive MeterKind where
  | counter
  | gauge
  | timer
  | distSummary
deriving DecidableEq, Repr

/-- A meter reference: its kind plus a creation token.  Two factory
results are the same meter instance exactly when their tokens agree. -/
structure MeterRef where
  kind : MeterKind
  tok : ℕ
deriving DecidableEq, Repr

/-- The registry's interning state: the next fresh creation token and
the identity-to-meter map (association list, one entry per identity). -/
structure Registry where
  nextTok : ℕ
  meters : List (Id × MeterRef)
deriving DecidableEq

/-- Look an identity up in the registry's meter map. -/
def findMeter : List (Id × MeterRef) → Id → Option MeterRef
  | [], _ => none
  | e :: t, i => if e.1 = i then some e.2 else findMeter t i

/-- Modelled from the spec: a registry factory method (`Counter`,
`Gauge`, `Timer`, `DistributionSummary`) constructs the Identity from
the name and tags, returns the existing meter if present, and otherwise
atomically inserts a freshly created meter of the requested kind. -/
def getOrCreate (r : Registry) (kind : MeterKind) (name : String)
    (tags : TagMap) : MeterRef × Registry :=
  match findMeter r.meters ⟨name, tags⟩ with
  | some m => (m, r)
  | none =>
      (⟨kind, r.nextTok⟩,
        ⟨r.nextTok + 1, r.meters ++ [(⟨name, tags⟩, ⟨kind, r.nextTok⟩)]⟩)

/-- The registry holds at most one meter entry per distinct identity. -/
def OnePerId (ms : List (Id × MeterRef)) : Prop :=
  (ms.map Prod.fst).Nodup

theorem findMeter_none_not_mem (ms : List (Id × MeterRef)) (i : Id)
    (h : findMeter ms i = none) : i ∉ ms.map Prod.fst := by
  induction ms with
  | nil => simp
  | cons e t ih =>
      simp only [findMeter] at h
      by_cases he : e.1 = i
      · rw [if_pos he] at h
        exact absurd h (by simp)
      · rw [if_neg he] at h
        simp only [List.map_cons, List.mem_cons]
        rintro (rfl | hm)
        · exact he rfl
        · exact ih h hm

/-- A factory call for an identity already present returns that meter
and leaves the registry unchanged. -/
theorem getOrCreate_found (r : Registry) (kind : MeterKind) (name : String)
    (tags : TagMap) (m : MeterRef)
    (h : findMeter r.meters ⟨name, tags⟩ = some m) :
    getOrCreate r kind name tags = (m, r) := by
  unfold getOrCreate
  rw [h]

/-- A factory call for an absent identity creates a fresh meter of the
requested kind and appends it to the registry. -/
theorem getOrCreate_new (r : Registry) (kind : MeterKind) (name : String)
    (tags : TagMap) (h : findMeter r.meters ⟨name, tags⟩ = none) :
    getOrCreate r kind name tags =
      (⟨kind, r.nextTok⟩,
        ⟨r.nextTok + 1, r.meters ++ [(⟨name, tags⟩, ⟨kind, r.nextTok⟩)]⟩) := by
  unfold getOrCreate
  rw [h]

/-- Inserting a fresh identity preserves the one-meter-per-identity
invariant. -/
theorem getOrCreate_preserves_onePerId (r : Registry) (kind : MeterKind)
    (name : String) (tags : TagMap) (h : OnePerId r.meters) :
    OnePerId (getOrCreate r kind name tags).2.meters := by
  cases hf : findMeter r.meters ⟨name, tags⟩ with
  | some m => rw [getOrCreate_found r kind name tags m hf]; exact h
  | none =>
      rw [getOrCreate_new r kind name tags hf]
      unfold OnePerId at h ⊢
      rw [List.map_append, List.nodup_append]
      refine ⟨h, List.nodup_singleton _, ?_⟩
      intro a ha hb
      rw [List.map_singleton, List.mem_singleton] at hb
      subst hb
      exact findMeter_none_not_mem r.meters ⟨name, tags⟩ hf ha

theorem findMeter_append_of_none (ms l : List (Id × MeterRef)) (i : Id)
    (h : findMeter ms i = none) : findMeter (ms ++ l) i = findMeter l i := by
  induction ms with
  | nil => rfl
  | cons e t ih =>
      simp only [findMeter] at h
      by_cases he : e.1 = i
      · rw [if_pos he] at h
        exact absurd h (by simp)
      · rw [if_neg he] at h
        simp only [List.cons_append, findMeter, if_neg he]
        exact ih h

/-- After a factory call, the requested identity is present in the
registry and maps to the meter the call returned. -/
theorem findMeter_after_getOrCreate (r : Registry) (kind : MeterKind)
    (name : String) (tags : TagMap) :
    findMeter (getOrCreate r kind name tags).2.meters ⟨name, tags⟩ =
      some (getOrCreate r kind name tags).1 := by
  cases hf : findMeter r.meters ⟨name, tags⟩ with
  | some m => rw [getOrCreate_found r kind name tags m hf]; exact hf
  | none =>
      rw [getOrCreate_new r kind name tags hf]
      simp only []
      rw [findMeter_append_of_none _ _ _ hf]
      simp [findMeter]

/-- C2.  Two registry factory calls of the same kind with the same name
and the same tag content (regardless of the order the tags were
inserted in) return the same meter instance, the second call leaves the
registry unchanged, and the registry keeps at most one meter per
distinct identity. -/
theorem registry_interning (r : Registry) (kind : MeterKind) (name : String)
    (l1 l2 : List (String × String))
    (hsame : ∀ k, goMapLookup l1 k = goMapLookup l2 k)
    (hinv : OnePerId r.meters) :
    ((getOrCreate ((getOrCreate r kind name (tagMapOfList l1)).2) kind name
        (tagMapOfList l2)).1 =
      (getOrCreate r kind name (tagMapOfList l1)).1) ∧
    ((getOrCreate ((getOrCreate r kind name (tagMapOfList l1)).2) kind name
        (tagMapOfList l2)).2 =
      (getOrCreate r kind name (tagMapOfList l1)).2) ∧
    OnePerId (getOrCreate r kind name (tagMapOfList l1)).2.meters := by
  have htags : tagMapOfList l1 = tagMapOfList l2 := by
    apply Finmap.ext_lookup
    intro k
    rw [tagMapOfList_lookup, tagMapOfList_lookup]
    exact hsame k
  rw [← htags]
  have hsecond := getOrCreate_found ((getOrCreate r kind name (tagMapOfList l1)).2)
    kind name (tagMapOfList l1) ((getOrCreate r kind name (tagMapOfList l1)).1)
    (findMeter_after_getOrCreate r kind name (tagMapOfList l1))
  refine ⟨?_, ?_, getOrCreate_preserves_onePerId r kind name _ hinv⟩
  · rw [hsecond]
  · rw [hsecond]

/-- Witness for C2 at concrete inputs: the tags `{a: 1, b: 2}` inserted
in two different orders produce the same meter from an empty registry. -/
theorem registry_interning_witness :
    (∀ k, goMapLookup [("a", "1"), ("b", "2")] k =
        goMapLookup [("b", "2"), ("a", "1")] k) ∧
    OnePerId (Registry.mk 0 []).meters ∧
    ((getOrCreate ((getOrCreate ⟨0, []⟩ MeterKind.counter "foo"
        (tagMapOfList [("a", "1"), ("b", "2")])).2) MeterKind.counter "foo"
        (tagMapOfList [("b", "2"), ("a", "1")])).1 =
      (getOrCreate ⟨0, []⟩ MeterKind.counter "foo"
        (tagMapOfList [("a", "1"), ("b", "2")])).1) := by
  have hsame : ∀ k, goMapLookup [("a", "1"), ("b", "2")] k =
      goMapLookup [("b", "2"), ("a", "1")] k := by
    intro k
    by_cases h1 : "a" = k
    · subst h1; decide
    · by_cases h2 : "b" = k
      · subst h2; decide
      · simp [goMapLookup, h1, h2]
  have hinv : OnePerId (Registry.mk 0 []).meters := List.nodup_nil
  exact ⟨hsame, hinv,
    (registry_interning ⟨0, []⟩ MeterKind.counter "foo"
      [("a", "1"), ("b", "2")] [("b", "2"), ("a", "1")] hsame hinv).1⟩

/-! ## Wire-protocol encoder

Modelled from the spec: the encoder turns a batch of measurement
records into one payload array: a deduplicated string table followed by
tag-indexed records `[T, k0, v0, ..., op, value]`.  A JSON payload item
is either a string or a number (JSON numbers decode to float64 in the
test; rationals here). -/

/-- One element of the JSON payload array. -/
inductive Item where
  | str (s : String)
  | num (q : ℚ)
deriving DecidableEq, Repr

/-- A measurement record produced by a sweep: merged tags (common tags,
identity tags, the `name` tag and the `statistic` tag), the operation
code and the numeric value. -/
structure Measurement where
  tags : List (String × String)
  op : ℕ
  value : ℚ
deriving DecidableEq, Repr

/-- All strings a measurement uses: its tag keys and tag values. -/
def stringsOf (m : Measurement) : List String :=
  m.tags.flatMap fun p => [p.1, p.2]

/-- All strings used anywhere in a batch of measurements. -/
def usedStrings (ms : List Measurement) : List String :=
  ms.flatMap stringsOf

/-- Modelled from the spec: the payload's string table holds each
distinct string used in the batch exactly once (order is
implementation-chosen but internally consistent). -/
def stringTable (ms : List Measurement) : List String :=
  (usedStrings ms).dedup

/-- Modelled from the spec: one record `[T, k0, v0, ..., op, value]`,
tag keys and values replaced by their 0-based index into the string
table. -/
def encodeMeasurement (tbl : List String) (m : Measurement) : List Item :=
  Item.num m.tags.length ::
    (m.tags.flatMap fun p =>
      [Item.num (tbl.indexOf p.1), Item.num (tbl.indexOf p.2)]) ++
    [Item.num m.op, Item.num m.value]

/-- Modelled from the spec: one self-contained payload — the string
count, the string table, then every record. -/
def encodePayload (ms : List Measurement) : List Item :=
  Item.num (stringTable ms).length ::
    (stringTable ms).map Item.str ++
    ms.flatMap (encodeMeasurement (stringTable ms))

/-! ## Payload decoder, translated from `registry_test.go`
(`getEntry` and `payloadToEntries`).  A Go type assertion or
out-of-range index panics; the model returns `none` there. -/

/-- `x.(float64)`: the item as a number, or failure. -/
def asNum : Item → Option ℚ
  | Item.num q => some q
  | Item.str _ => none

/-- `x.(string)`: the item as a string, or failure. -/
def asStr : Item → Option String
  | Item.str s => some s
  | Item.num _ => none

/-- Go `int(q)` on a non-negative float: truncation. -/
def ratToNat (q : ℚ) : ℕ :=
  q.num.toNat / q.den

/-- `int(x.(float64))`. -/
def itemToNat (it : Item) : Option ℕ :=
  (asNum it).map ratToNat

/-- A decoded payload entry (`payloadEntry` in the test): the
reconstructed tag map, the op code and the value. -/
structure Entry where
  tags : TagMap
  op : ℕ
  value : ℚ

instance : DecidableEq Entry := fun a b =>
  decidable_of_iff (a.tags = b.tags ∧ a.op = b.op ∧ a.value = b.value)
    (by cases a; cases b; simp)

/-- The tag-reading loop of `getEntry`: for `numTags` iterations read
the key index at `2*j+1` and the value index at `2*j+2` and assign
`tags[strings[keyIdx]] = strings[valIdx]`. -/
def getTags (strings : List String) (payload : List Item)
    (numTags : ℕ) : Option TagMap :=
  (List.range numTags).foldlM
    (fun m j => do
      let kIdx ← itemToNat (← payload.get? (2 * j + 1))
      let vIdx ← itemToNat (← payload.get? (2 * j + 2))
      let k ← strings.get? kIdx
      let v ← strings.get? vIdx
      pure (m.insert k v))
    ∅

/-- `getEntry` from `registry_test.go`: reads one record from the front
of `payload` and returns the number of consumed items with the decoded
entry. -/
def getEntry (strings : List String) (payload : List Item) :
    Option (ℕ × Entry) := do
  let numTags ← itemToNat (← payload.get? 0)
  let tags ← getTags strings payload numTags
  let op ← itemToNat (← payload.get? (numTags * 2 + 1))
  let value ← asNum (← payload.get? (numTags * 2 + 2))
  pure (numTags * 2 + 3, ⟨tags, op, value⟩)

/-- The record loop of `payloadToEntries`: while items remain, decode
one record and advance by the consumed count (failing, as the test
does, if no progress is made).  Recursion is fuelled by the remaining
length. -/
def decodeEntriesGo (strings : List String) :
    ℕ → List Item → Option (List Entry)
  | _, [] => some []
  | 0, _ :: _ => none
  | fuel + 1, it :: rest => do
      let (n, e) ← getEntry strings (it :: rest)
      if n = 0 then none
      else do
        let es ← decodeEntriesGo strings fuel ((it :: rest).drop n)
        pure (e :: es)

/-- `payloadToEntries` from `registry_test.go`: read the string count,
the string table, then decode every record. -/
def payloadToEntries (payload : List Item) : Option (List Entry) := do
  let numStrings ← itemToNat (← payload.get? 0)
  let strings ← (List.range numStrings).mapM
    (fun i => do asStr (← payload.get? (i + 1)))
  decodeEntriesGo strings payload.length (payload.drop (numStrings + 1))

/-! ## C3: end-to-end encoding of a single counter -/

/-- The common tags of the test configuration (`makeConfig`). -/
def commonTagsTest : List (String × String) :=
  [("nf.app", "test"), ("nf.cluster", "test-main"),
   ("nf.asg", "test-main-v001"), ("nf.region", "us-west-1")]

/-- Modelled from the spec: the measurement a counter produces on a
sweep — the common tags merged with the identity tags plus the `name`
and `statistic: count` tags, op `Add` (encoded 0), and the accumulated
delta as the value. -/
def counterSweepMeasurement (common : List (String × String))
    (name : String) (extra : List (String × String)) (delta : ℚ) :
    Measurement :=
  ⟨common ++ extra ++ [("name", name), ("statistic", "count")], 0, delta⟩

/-- The payload one publish cycle produces for the C3 scenario: a
single counter `foo` with no extra tags after `Add(10)`. -/
def fooPayload : List Item :=
  encodePayload [counterSweepMeasurement commonTagsTest "foo" [] 10]

/-- The tag map C3 expects on the decoded record. -/
def fooExpectedTags : TagMap :=
  tagMapOfList
    [("nf.app", "test"), ("nf.cluster", "test-main"),
     ("nf.asg", "test-main-v001"), ("nf.region", "us-west-1"),
     ("name", "foo"), ("statistic", "count")]

/-- C3.  For the test configuration's common tags and a single counter
`foo` with no extra tags, after `Add(10)` one publish cycle produces a
payload that decodes to exactly one record whose tag map is the common
tags plus `statistic: count` and `name: foo`, whose op code is `Add`
(encoded 0) and whose value is 10. -/
theorem foo_payload_decodes :
    payloadToEntries fooPayload = some [⟨fooExpectedTags, 0, 10⟩] := by
  rfl

/-! ## C4: wire payload well-formedness -/

/-- C4.  Every encoded payload is a single array beginning with `N`,
the count of distinct strings used anywhere in that payload, followed
by those `N` strings, followed by records `[T, k0, v0, ..., op, value]`
where `T` is the record's tag-pair count and every key or value index
is a 0-based index less than `N` into the payload's own string table. -/
theorem payload_wire_format (ms : List Measurement) :
    encodePayload ms =
      Item.num (stringTable ms).length ::
        (stringTable ms).map Item.str ++
        ms.flatMap (encodeMeasurement (stringTable ms)) ∧
    (stringTable ms).length = (usedStrings ms).toFinset.card ∧
    (stringTable ms).Nodup ∧
    (∀ m, m ∈ ms →
      encodeMeasurement (stringTable ms) m =
        Item.num m.tags.length ::
          (m.tags.flatMap fun p =>
            [Item.num ((stringTable ms).indexOf p.1),
             Item.num ((stringTable ms).indexOf p.2)]) ++
          [Item.num m.op, Item.num m.value]) ∧
    (∀ m, m ∈ ms → ∀ p, p ∈ m.tags →
      (stringTable ms).indexOf p.1 < (stringTable ms).length ∧
      (stringTable ms).indexOf p.2 < (stringTable ms).length) := by
  refine ⟨rfl, ?_, List.nodup_dedup _, fun m _ => rfl, ?_⟩
  · exact (List.card_toFinset (usedStrings ms)).symm
  · intro m hm p hp
    have hk : p.1 ∈ usedStrings ms := by
      unfold usedStrings
      rw [List.mem_flatMap]
      refine ⟨m, hm, ?_⟩
      unfold stringsOf
      rw [List.mem_flatMap]
      exact ⟨p, hp, by simp⟩
    have hv : p.2 ∈ usedStrings ms := by
      unfold usedStrings
      rw [List.mem_flatMap]
      refine ⟨m, hm, ?_⟩
      unfold stringsOf
      rw [List.mem_flatMap]
      exact ⟨p, hp, by simp⟩
    constructor
    · exact List.indexOf_lt_length.2 (List.mem_dedup.2 hk)
    · exact List.indexOf_lt_length.2 (List.mem_dedup.2 hv)

/-- Witness for C4 at a concrete payload: the C3 measurement batch. -/
theorem payload_wire_format_witness :
    ((counterSweepMeasurement commonTagsTest "foo" [] 10) ∈
      [counterSweepMeasurement commonTagsTest "foo" [] 10]) ∧
    (("name", "foo") ∈
      (counterSweepMeasurement commonTagsTest "foo" [] 10).tags) ∧
    ((stringTable [counterSweepMeasurement commonTagsTest "foo" [] 10]).indexOf
        "name" <
      (stringTable [counterSweepMeasurement commonTagsTest "foo" [] 10]).length) := by
  refine ⟨List.mem_singleton.2 rfl, by decide, ?_⟩
  exact ((payload_wire_format
      [counterSweepMeasurement commonTagsTest "foo" [] 10]).2.2.2.2
    (counterSweepMeasurement commonTagsTest "foo" [] 10)
    (List.mem_singleton.2 rfl) ("name", "foo") (by decide)).1

/-! ## C7: batch splitting

Modelled from the spec: if the total record count exceeds the batch
limit, the publisher splits the records into consecutive chunks of at
most that size, and each chunk is encoded as an independent payload
with its own string table. -/

/-- Split a list into consecutive chunks of at most `B` elements.
The recursion is fuelled by the list length; with a positive `B` the
fuel never runs out. -/
def chunksGo (B : ℕ) : ℕ → List Measurement → List (List Measurement)
  | _, [] => []
  | 0, _ :: _ => []
  | fuel + 1, x :: xs => (x :: xs).take B :: chunksGo B fuel ((x :: xs).drop B)

/-- The consecutive batches of at most `B` records each. -/
def chunkList (B : ℕ) (l : List Measurement) : List (List Measurement) :=
  chunksGo B l.length l

/-- Modelled from the spec: the publisher encodes and transmits each
batch as an independent payload with its own self-contained string
table. -/
def batchedPayloads (B : ℕ) (ms : List Measurement) : List (List Item) :=
  (chunkList B ms).map encodePayload

theorem chunksGo_flatten (B : ℕ) (hB : 0 < B) :
    ∀ (fuel : ℕ) (l : List Measurement), l.length ≤ fuel →
      (chunksGo B fuel l).flatten = l := by
  intro fuel
  induction fuel with
  | zero =>
      intro l hl
      rw [Nat.le_zero, List.length_eq_zero] at hl
      subst hl
      rfl
  | succ n ih =>
      intro l hl
      cases l with
      | nil => rfl
      | cons x xs =>
          have hd : ((x :: xs).drop B).length ≤ n := by
            rw [List.length_drop]
            have : (x :: xs).length ≤ n + 1 := hl
            omega
          calc (chunksGo B (n + 1) (x :: xs)).flatten
              = (x :: xs).take B ++ (chunksGo B n ((x :: xs).drop B)).flatten := rfl
            _ = (x :: xs).take B ++ (x :: xs).drop B := by rw [ih _ hd]
            _ = x :: xs := List.take_append_drop B (x :: xs)

theorem div_ceil_of_le {L B : ℕ} (hB : 0 < B) (h1 : 1 ≤ L) (h2 : L ≤ B) :
    (L + B - 1) / B = 1 := by
  have ha : L + B - 1 = (L - 1) + B := by omega
  rw [ha, Nat.add_div_right _ hB, Nat.div_eq_of_lt (by omega)]

theorem chunksGo_length (B : ℕ) (hB : 0 < B) :
    ∀ (fuel : ℕ) (l : List Measurement), l.length ≤ fuel →
      (chunksGo B fuel l).length = (l.length + B - 1) / B := by
  intro fuel
  induction fuel with
  | zero =>
      intro l hl
      rw [Nat.le_zero, List.length_eq_zero] at hl
      subst hl
      show 0 = (0 + B - 1) / B
      rw [Nat.div_eq_of_lt (by omega)]
  | succ n ih =>
      intro l hl
      cases l with
      | nil =>
          show 0 = (0 + B - 1) / B
          rw [Nat.div_eq_of_lt (by omega)]
      | cons x xs =>
          have hL : 1 ≤ (x :: xs).length := by simp
          have hd : ((x :: xs).drop B).length ≤ n := by
            rw [List.length_drop]
            have : (x :: xs).length ≤ n + 1 := hl
            omega
          have hrec : (chunksGo B (n + 1) (x :: xs)).length =
              1 + (((x :: xs).length - B) + B - 1) / B := by
            show (chunksGo B n ((x :: xs).drop B)).length + 1 = _
            rw [ih _ hd, List.length_drop]
            omega
          rw [hrec]
          rcases Nat.le_total (x :: xs).length B with hc | hc
          · have hz : (x :: xs).length - B = 0 := by omega
            rw [hz, Nat.div_eq_of_lt (by omega : 0 + B - 1 < B),
              div_ceil_of_le hB hL hc]
          · have ha : (x :: xs).length - B + B - 1 = (x :: xs).length - 1 := by
              omega
            have hb : (x :: xs).length + B - 1 = ((x :: xs).length - 1) + B := by
              omega
            rw [ha, hb, Nat.add_div_right _ hB]
            omega

theorem chunksGo_bounded (B : ℕ) :
    ∀ (fuel : ℕ) (l : List Measurement) (c : List Measurement),
      c ∈ chunksGo B fuel l → c.length ≤ B := by
  intro fuel
  induction fuel with
  | zero =>
      intro l c hc
      cases l with
      | nil => cases hc
      | cons x xs => cases hc
  | succ n ih =>
      intro l c hc
      cases l with
      | nil => cases hc
      | cons x xs =>
          rcases List.mem_cons.1 hc with rfl | hm
          · have := List.length_take B (x :: xs)
            rw [this]
            exact min_le_left _ _
          · exact ih _ _ hm

/-- C7.  For every batch limit `B > 0`, the publisher splits the sweep's
records into consecutive chunks (their concatenation is the original
record list), issues exactly `⌈T/B⌉` requests whose record counts sum to
the total `T`, each carrying at most `B` records, and each chunk is
encoded as an independent payload with its own self-contained string
table. -/
theorem batch_splitting (B : ℕ) (ms : List Measurement) (hB : 0 < B) :
    (chunkList B ms).flatten = ms ∧
    (chunkList B ms).length = (ms.length + B - 1) / B ∧
    ((chunkList B ms).map List.length).sum = ms.length ∧
    (∀ c, c ∈ chunkList B ms → c.length ≤ B) ∧
    batchedPayloads B ms = (chunkList B ms).map encodePayload := by
  have hflat := chunksGo_flatten B hB ms.length ms le_rfl
  refine ⟨hflat, chunksGo_length B hB ms.length ms le_rfl, ?_,
    fun c hc => chunksGo_bounded B ms.length ms c hc, rfl⟩
  calc ((chunkList B ms).map List.length).sum
      = (chunkList B ms).flatten.length := (List.length_flatten _).symm
    _ = ms.length := by
        rw [show (chunkList B ms).flatten = ms from hflat]

/-- Witness for C7 at concrete inputs: batch limit 2 over 5 records. -/
theorem batch_splitting_witness :
    (0 : ℕ) < 2 ∧
    (chunkList 2 [⟨[], 0, 1⟩, ⟨[], 0, 2⟩, ⟨[], 0, 3⟩, ⟨[], 0, 4⟩,
        ⟨[], 0, 5⟩]).length = (5 + 2 - 1) / 2 := by
  exact ⟨by decide,
    (batch_splitting 2 [⟨[], 0, 1⟩, ⟨[], 0, 2⟩, ⟨[], 0, 3⟩, ⟨[], 0, 4⟩,
      ⟨[], 0, 5⟩] (by decide)).2.1⟩

/-! ## C5: publish scheduler tick and enablement gating

Modelled from the spec: each tick first checks the enablement
predicate; if one is configured (`some`) and returns `false`, the whole
tick is skipped — no sweep, no network call, meter state untouched.
Otherwise the tick sweeps all meters via `Measure`, encodes the records
in batches and POSTs each batch.  Meter state here is the registry's
counters (the scenario of the enablement test). -/

/-- The publisher-facing state: per-name counter accumulators plus the
log of payloads POSTed so far (one list entry per network call). -/
structure PubState where
  counters : List (String × CounterState)
  sent : List (List Item)
deriving DecidableEq

/-- `Counter(name).Add(delta)`: update the named counter, creating it
on first use. -/
def addToCounter (cs : List (String × CounterState)) (name : String)
    (delta : ℚ) : List (String × CounterState) :=
  match cs with
  | [] => [(name, counterAdd 0 delta)]
  | c :: t =>
      if c.1 = name then (c.1, counterAdd c.2 delta) :: t
      else c :: addToCounter t name delta

/-- Modelled from the spec: the sweep calls `Measure` on every counter,
producing one record per counter and leaving every accumulator reset. -/
def sweepCounters (common : List (String × String))
    (cs : List (String × CounterState)) :
    List Measurement × List (String × CounterState) :=
  (cs.map fun c => counterSweepMeasurement common c.1 [] (counterMeasure c.2).1,
   cs.map fun c => (c.1, (counterMeasure c.2).2))

/-- Modelled from the spec: one publish tick.  If an enablement
predicate is configured (`some b`) and currently returns `false`, skip
the entire tick; otherwise sweep, batch, encode and POST each batch. -/
def publishTick (isEnabled : Option Bool) (B : ℕ)
    (common : List (String × String)) (st : PubState) : PubState :=
  match isEnabled with
  | some false => st
  | _ =>
      ⟨(sweepCounters common st.counters).2,
       st.sent ++ batchedPayloads B (sweepCounters common st.counters).1⟩

/-- The enablement-test scenario step: `Counter("foo").Add(10)` then one
publish tick with the given predicate value (batch limit 10000, the
test configuration's). -/
def enabledStep (e : Bool) (st : PubState) : PubState :=
  publishTick (some e) 10000 commonTagsTest
    ⟨addToCounter st.counters "foo" 10, st.sent⟩

/-- C5.  A tick whose configured enablement predicate returns `false`
performs no sweep and no network call and leaves all accumulated meter
state unchanged; a tick whose predicate returns `true` publishes, so
the sequence enabled, enabled, disabled, enabled (each preceded by an
update, as in the enablement test) results in exactly 3 network publish
calls. -/
theorem enablement_gating :
    (∀ (B : ℕ) (common : List (String × String)) (st : PubState),
      publishTick (some false) B common st = st) ∧
    (enabledStep true (enabledStep false (enabledStep true (enabledStep true
        ⟨[], []⟩)))).sent.length = 3 ∧
    (enabledStep false (enabledStep true (enabledStep true
        ⟨[], []⟩))).sent.length = 2 := by
  refine ⟨fun B common st => rfl, ?_, ?_⟩
  · rfl
  · rfl

/-! ## C8: lossless concurrent accumulation

Modelled from the spec: every producer update is an atomic `Add`; an
execution with no intervening `Measure` is an arbitrary interleaving of
the producers' increments, i.e. an arbitrary sequence of events, each
tagged with the producer (< N) that issued it.  Each of the N producers
performs exactly M increments. -/

/-- Run an interleaved execution: each event is one `Increment`
(`Add(1)`) applied atomically to the shared counter, starting fresh. -/
def incRun (es : List ℕ) : CounterState :=
  es.foldl (fun c _ => counterAdd c 1) 0

theorem incRun_foldl (es : List ℕ) :
    ∀ c : CounterState, es.foldl (fun c _ => counterAdd c 1) c =
      c + es.length := by
  induction es with
  | nil => intro c; simp [counterAdd]
  | cons e t ih =>
      intro c
      rw [List.foldl_cons, ih (counterAdd c 1)]
      unfold counterAdd
      push_cast [List.length_cons]
      ring

theorem length_eq_sum_counts (es : List ℕ) (N : ℕ)
    (h : ∀ e ∈ es, e < N) :
    es.length = ∑ p ∈ Finset.range N, es.count p := by
  induction es with
  | nil => simp
  | cons e t ih =>
      have he : e < N := h e (List.mem_cons_self e t)
      have ht : ∀ x ∈ t, x < N := fun x hx => h x (List.mem_cons_of_mem e hx)
      have hsplit : ∀ p : ℕ, (e :: t).count p =
          t.count p + if p = e then 1 else 0 := by
        intro p
        rcases eq_or_ne p e with rfl | hne
        · rw [List.count_cons_self, if_pos rfl]
        · rw [List.count_cons_of_ne hne, if_neg hne, Nat.add_zero]
      have hsum : ∑ p ∈ Finset.range N, (e :: t).count p =
          (∑ p ∈ Finset.range N, t.count p) + 1 := by
        calc ∑ p ∈ Finset.range N, (e :: t).count p
            = ∑ p ∈ Finset.range N, (t.count p + if p = e then 1 else 0) :=
              Finset.sum_congr rfl fun p _ => hsplit p
          _ = (∑ p ∈ Finset.range N, t.count p) +
              ∑ p ∈ Finset.range N, (if p = e then 1 else 0) :=
              Finset.sum_add_distrib
          _ = (∑ p ∈ Finset.range N, t.count p) + 1 := by
              rw [Finset.sum_ite_eq' (Finset.range N) e fun _ => (1 : ℕ),
                if_pos (Finset.mem_range.2 he)]
      rw [List.length_cons, hsum, ih ht]

/-- C8.  For every N and M, any interleaving of N producers each
performing M atomic increments on the same fresh counter (with no
intervening `Measure`) yields a subsequent `Measure` delta of exactly
N·M: no update is lost or double-counted. -/
theorem concurrent_increments_lossless (N M : ℕ) (es : List ℕ)
    (hmem : ∀ e ∈ es, e < N) (hcount : ∀ p, p < N → es.count p = M) :
    (counterMeasure (incRun es)).1 = ((N * M : ℕ) : ℚ) := by
  have hlen : es.length = N * M := by
    rw [length_eq_sum_counts es N hmem]
    calc ∑ p ∈ Finset.range N, es.count p
        = ∑ _p ∈ Finset.range N, M :=
          Finset.sum_congr rfl fun p hp => hcount p (Finset.mem_range.1 hp)
      _ = N * M := by rw [Finset.sum_const, Finset.card_range, smul_eq_mul]
  show incRun es = ((N * M : ℕ) : ℚ)
  rw [incRun, incRun_foldl, hlen]
  push_cast
  ring

/-- Witness for C8 at concrete inputs: 2 producers, 2 increments each,
interleaved as producer 0, 1, 1, 0. -/
theorem concurrent_increments_lossless_witness :
    (∀ e ∈ [0, 1, 1, 0], e < 2) ∧
    (∀ p, p < 2 → ([0, 1, 1, 0] : List ℕ).count p = 2) ∧
    (counterMeasure (incRun [0, 1, 1, 0])).1 = ((2 * 2 : ℕ) : ℚ) := by
  refine ⟨by decide, by decide, ?_⟩
  exact concurrent_increments_lossless 2 2 [0, 1, 1, 0] (by decide) (by decide)

/-! ## C9: the HTTP scrape handler (`http_handler.go`)

Embedded from the source.  The handler does, in order:
`w.WriteHeader(http.StatusOK)`; `payload := registry.GetExport()`;
`b, _ := json.Marshal(payload)`; `w.Write(b)`.  The response writer is
modelled as the ordered list of calls made on it; `json.Marshal` is an
external collaborator returning bytes and a possible error (on error Go
gives `b = nil`, written as-is), and `registry.GetExport` is the export
snapshot passed in. -/

/-- A call made on the HTTP response writer. -/
inductive HttpEvent where
  | writeHeader (status : ℕ)
  | write (body : List ℕ)
deriving DecidableEq, Repr

/-- `HttpHandler` from `http_handler.go`: write status 200, marshal the
export, discard the marshal error, write the bytes. -/
def HttpHandler {α : Type} (export_ : α)
    (marshal : α → List ℕ × Option String) : List HttpEvent :=
  [HttpEvent.writeHeader 200, HttpEvent.write (marshal export_).1]

/-- C9.  For every request, the handler writes status 200
unconditionally before serializing the export; the JSON marshaling
error is silently discarded (the response never depends on it) and the
write error is ignored (no event after the write), so the handler never
reports a non-success status and never fails. -/
theorem http_handler_always_ok (α : Type) (export_ : α)
    (marshal : α → List ℕ × Option String) :
    (HttpHandler export_ marshal).head? = some (HttpEvent.writeHeader 200) ∧
    HttpHandler export_ marshal =
      HttpHandler export_ (fun a => ((marshal a).1, none)) ∧
    (HttpHandler export_ marshal).all
      (fun ev => match ev with
        | HttpEvent.writeHeader s => s == 200
        | HttpEvent.write _ => true) = true ∧
    HttpHandler export_ marshal =
      [HttpEvent.writeHeader 200, HttpEvent.write (marshal export_).1] := by
  refine ⟨rfl, rfl, ?_, rfl⟩
  simp [HttpHandler]

/-! ## C10: the pull-based export snapshot (`http_handler.go` types)

The snapshot data types are embedded from the source: `Value` has an
`int` field `V` and an `int64` field `T`, so every exported statistic
value is an integer.  The conversion from swept measurement values
(float64 in the source) to `Value` is modelled from the spec
(`Convert` itself is not in the repository snapshot): grouping records
by metric name into a kind label and a list of (tag set, timestamped
value) entries, the numeric value converted by Go `int(...)`
truncation. -/

/-- `Tag` from `http_handler.go`. -/
structure Tag where
  Key : String
  Value : String
deriving DecidableEq, Repr

/-- `Value` from `http_handler.go`: `V int`, `T int64`. -/
structure Value where
  V : ℤ
  T : ℤ
deriving DecidableEq, Repr

/-- `TopValue` from `http_handler.go`. -/
structure TopValue where
  Tags : List Tag
  Values : List Value
deriving DecidableEq, Repr

/-- `Metric` from `http_handler.go`. -/
structure Metric where
  Kind : String
  Values : List TopValue
deriving DecidableEq, Repr

/-- Go `int(x)` on a float64: truncation toward zero. -/
def ratTruncInt (q : ℚ) : ℤ :=
  if 0 ≤ q then ⌊q⌋ else ⌈q⌉

/-- One record of the export sweep: metric name, meter kind, merged
tags, the measured value and the measurement timestamp. -/
structure ExportRecord where
  name : String
  kind : String
  tags : List Tag
  value : ℚ
  timestamp : ℤ
deriving DecidableEq, Repr

/-- Modelled from the spec: `Convert` (not in the repository snapshot)
groups the sweep's records by metric name into a kind label and an
ordered list of (tag set, timestamped value) entries, each numeric
value truncated to the snapshot's integer `V` field. -/
def Convert (rs : List ExportRecord) : List (String × Metric) :=
  ((rs.map fun r => r.name).dedup).map fun n =>
    (n,
      ⟨((rs.filter fun r => r.name == n).head?).elim "" (fun r => r.kind),
       (rs.filter fun r => r.name == n).map fun r =>
         ⟨r.tags, [⟨ratTruncInt r.value, r.timestamp⟩]⟩⟩)

/-- C10.  Every value in the pull-based export snapshot is an integer
(`V : ℤ` paired with an `int64` timestamp): each one is the truncation
toward zero of the corresponding swept statistic value, for all meter
kinds, and truncation moves a value by strictly less than 1 and is the
identity on integral values. -/
theorem export_values_integral (rs : List ExportRecord) :
    (∀ nm m, (nm, m) ∈ Convert rs → ∀ tv ∈ m.Values, ∀ v ∈ tv.Values,
      ∃ r, r ∈ rs ∧ v.V = ratTruncInt r.value ∧ v.T = r.timestamp) ∧
    (∀ q : ℚ, |q - (ratTruncInt q : ℚ)| < 1) ∧
    (∀ n : ℤ, ratTruncInt (n : ℚ) = n) := by
  refine ⟨?_, ?_, ?_⟩
  · intro nm m hmem tv htv v hv
    rw [Convert, List.mem_map] at hmem
    obtain ⟨n, _hn, heq⟩ := hmem
    obtain ⟨rfl, rfl⟩ : nm = n ∧ m =
        ⟨((rs.filter fun r => r.name == n).head?).elim "" (fun r => r.kind),
         (rs.filter fun r => r.name == n).map fun r =>
           ⟨r.tags, [⟨ratTruncInt r.value, r.timestamp⟩]⟩⟩ := by
      rw [Prod.mk.injEq] at heq
      exact ⟨heq.1.symm, heq.2.symm⟩
    rw [List.mem_map] at htv
    obtain ⟨r, hr, hrtv⟩ := htv
    subst hrtv
    rw [List.mem_singleton] at hv
    subst hv
    exact ⟨r, (List.mem_filter.1 hr).1, rfl, rfl⟩
  · intro q
    unfold ratTruncInt
    by_cases hq : 0 ≤ q
    · rw [if_pos hq, abs_of_nonneg (by linarith [Int.floor_le q])]
      linarith [Int.lt_floor_add_one q]
    · rw [if_neg hq, abs_of_nonpos (by linarith [Int.le_ceil q])]
      linarith [Int.ceil_lt_add_one q]
  · intro n
    unfold ratTruncInt
    by_cases hn : 0 ≤ (n : ℚ)
    · rw [if_pos hn, Int.floor_intCast]
    · rw [if_neg hn, Int.ceil_intCast]

/-- Witness for C10 at a concrete input: one record with measured
value 3 exports the integer 3. -/
theorem export_values_integral_witness :
    (("n", (⟨"Counter", [⟨[], [⟨3, 5⟩]⟩]⟩ : Metric)) ∈
      Convert [⟨"n", "Counter", [], 3, 5⟩]) ∧
    ((⟨[], [⟨3, 5⟩]⟩ : TopValue) ∈
      (⟨"Counter", [⟨[], [⟨3, 5⟩]⟩]⟩ : Metric).Values) ∧
    ((⟨3, 5⟩ : Value) ∈ (⟨[], [⟨3, 5⟩]⟩ : TopValue).Values) ∧
    (∃ r, r ∈ [(⟨"n", "Counter", [], 3, 5⟩ : ExportRecord)] ∧
      (⟨3, 5⟩ : Value).V = ratTruncInt r.value ∧
      (⟨3, 5⟩ : Value).T = r.timestamp) := by
  have h1 : (("n", (⟨"Counter", [⟨[], [⟨3, 5⟩]⟩]⟩ : Metric)) ∈
      Convert [⟨"n", "Counter", [], 3, 5⟩]) := List.mem_singleton.2 (by rfl)
  have h2 : (⟨[], [⟨3, 5⟩]⟩ : TopValue) ∈
      (⟨"Counter", [⟨[], [⟨3, 5⟩]⟩]⟩ : Metric).Values :=
    List.mem_singleton.2 rfl
  have h3 : (⟨3, 5⟩ : Value) ∈ (⟨[], [⟨3, 5⟩]⟩ : TopValue).Values :=
    List.mem_singleton.2 rfl
  exact ⟨h1, h2, h3,
    (export_values_integral [⟨"n", "Counter", [], 3, 5⟩]).1
      "n" ⟨"Counter", [⟨[], [⟨3, 5⟩]⟩]⟩ h1 ⟨[], [⟨3, 5⟩]⟩ h2 ⟨3, 5⟩ h3⟩

end Spectator
